import Mathlib

/-!
Shallow embedding of `src/ltsv.rs` (LTSV parsing and the stream operations
`parse_head`, `each_record`, `group_by`, `order_by`), with theorems checking
the specification's claims against it.

Text is modelled as `List Char`; a `String` of the Rust code is a `Str` here.
A line source is modelled as the list of raw strings that successive
`read_line` calls return (each read normally includes its trailing `'\n'`;
a final read at end of file may lack it); `read_line` reports the number of
UTF-8 bytes read, `0` at end of stream.  `HashMap` is modelled as an
association list with unique keys (`insert` overwrites in place, otherwise
appends); iteration order is irrelevant to every claim.  The `io::Error`
payload is irrelevant to the pure model, so `Error.io` carries none.
-/

abbrev Str := List Char

/-- `pub type Record = HashMap<String, String>;` as an association list with
unique keys. -/
abbrev RecordL := List (Str × Str)

/-- `pub type FieldGroupCount = HashMap<String, i32>;` as an association list.
A count is an `i32` value: an `Int` kept in `[-2147483648, 2147483648)` by
wrapping every increment with `wrap32` (release-build two's-complement
overflow of `*count += 1`). -/
abbrev FieldGroupCountL := List (Str × Int)

/-- `enum Error { Io(io::Error), Parse(ParseError) }`; the parse payload is
the `ParseError.msg` text. -/
inductive Error where
  | io : Error
  | parse : Str → Error
deriving DecidableEq

deriving instance DecidableEq for Except

/-- UTF-8 byte length of a string, the `usize` that `read_line` reports. -/
def utf8Len (s : Str) : Nat := (s.map Char.utf8Size).sum

/-- `read_line(&mut buf)` on the modelled source: returns
`(bytes_read, line, remaining source)`; `0` bytes read signals end of
stream and leaves the source unchanged. -/
def read_line : List Str → Nat × Str × List Str
  | [] => (0, [], [])
  | r :: rest => (utf8Len r, r, rest)

/-- Split a string at the first occurrence of `c`: the part before it and,
when `c` occurs, the part after it. -/
def splitFirst (c : Char) : Str → Str × Option Str
  | [] => ([], none)
  | x :: xs =>
      if x = c then ([], some xs)
      else
        let r := splitFirst c xs
        (x :: r.1, r.2)

/-- `field.splitn(2, ':')`: at most two parts, split at the first `c` only. -/
def splitn2 (c : Char) (s : Str) : List Str :=
  match splitFirst c s with
  | (a, none) => [a]
  | (a, some b) => [a, b]

/-- `line.split('\t')`: all tab-separated parts (the empty string yields one
empty part). -/
def splitAll (c : Char) : Str → List Str
  | [] => [[]]
  | x :: xs =>
      if x = c then [] :: splitAll c xs
      else
        match splitAll c xs with
        | [] => [[x]]
        | p :: ps => (x :: p) :: ps

/-- `HashMap::insert`: overwrite the value of an existing key, otherwise add
the binding. -/
def recInsert (k v : Str) : RecordL → RecordL
  | [] => [(k, v)]
  | (k', v') :: r => if k' = k then (k, v) :: r else (k', v') :: recInsert k v r

/-- `HashMap::get` on the modelled record. -/
def recGet (k : Str) : RecordL → Option Str
  | [] => none
  | (k', v) :: r => if k' = k then some v else recGet k r

/-- `format!("invalid ltsv field: {}", field)` (the `parse_head` message). -/
def invalidFieldMsg (f : Str) : Str := ("invalid ltsv field: ").toList ++ f

/-- `format!("invalid ltsv item: {}", item)` (the `each_record` / `group_by`
message). -/
def invalidItemMsg (f : Str) : Str := ("invalid ltsv item: ").toList ++ f

/-- `format!("unreachable error: {}", field)` (the wildcard match arm). -/
def unreachableMsg (f : Str) : Str := ("unreachable error: ").toList ++ f

/-- The skip loop of `parse_head`, with fuel bounding the number of
iterations: the Rust loop `continue`s on `Ok(0)` (end of stream) and `Ok(1)`
and breaks with the line on any longer read.  `none` means the loop is still
running after `fuel` iterations. -/
def parse_head_loop : List Str → Nat → Option Str
  | _, 0 => none
  | reads, fuel + 1 =>
      match read_line reads with
      | (n, line, rest) =>
          if n = 0 ∨ n = 1 then parse_head_loop rest fuel else some line

/-- The field loop of `parse_head`: `splitn(2, ':')` each field and match on
the part count. -/
def parse_head_fields : List Str → RecordL → Except Error RecordL
  | [], record => .ok record
  | field :: fields, record =>
      match splitn2 ':' field with
      | [] => .error (.parse (invalidFieldMsg field))
      | [_] => .error (.parse (invalidFieldMsg field))
      | [l, v] => parse_head_fields fields (recInsert l v record)
      | _ => .error (.parse (unreachableMsg field))

/-- `parse_head`: skip loop (note: the found line is parsed as read, with no
terminator stripped), then the field loop over `found.split('\t')`.
`none` means the skip loop had not terminated after `fuel` iterations. -/
def parse_head (reads : List Str) (fuel : Nat) : Option (Except Error RecordL) :=
  match parse_head_loop reads fuel with
  | none => none
  | some found => some (parse_head_fields (splitAll '\t' found) [])

/-- `line.pop()`: remove the last character, whatever it is. -/
def strPop (s : Str) : Str := s.dropLast

/-- The field loop of `each_record`. -/
def each_record_fields : List Str → RecordL → Except Error RecordL
  | [], record => .ok record
  | item :: items, record =>
      match splitn2 ':' item with
      | [] => .error (.parse (invalidItemMsg item))
      | [_] => .error (.parse (invalidItemMsg item))
      | [l, v] => each_record_fields items (recInsert l v record)
      | _ => .error (.parse (unreachableMsg item))

/-- `each_record(reader, f)`: read until `Ok(0)`, pop the last character of
each line, skip empty remainders, parse the rest and call the visitor.
The result is the sequence of records passed to the visitor together with
the outcome (`none` models `Ok(())`, `some e` models `Err(e)`). -/
def each_record : List Str → List RecordL × Option Error
  | [] => ([], none)
  | read :: rest =>
      let line := strPop read
      if line = [] then each_record rest
      else
        match each_record_fields (splitAll '\t' line) [] with
        | .error e => ([], some e)
        | .ok record =>
            let r := each_record rest
            (record :: r.1, r.2)

/-- Reduce an integer to the `i32` it denotes in two's complement: the
result lies in `[-2147483648, 2147483648)` (that is `[-2^31, 2^31)`) and is
congruent to the argument mod `4294967296` (`2^32`). -/
def wrap32 (n : Int) : Int := (n + 2147483648) % 4294967296 - 2147483648

/-- `group.entry(value).or_insert(0); *count += 1;` — the increment is an
`i32` addition, which wraps on overflow (release-build semantics). -/
def bump (k : Str) : FieldGroupCountL → FieldGroupCountL
  | [] => [(k, wrap32 (0 + 1))]
  | (k', c) :: g => if k' = k then (k', wrap32 (c + 1)) :: g else (k', c) :: bump k g

/-- The field loop of `group_by`: validate every field; on a matching label,
bump the count of the field's value. -/
def group_by_fields (label : Str) : List Str → FieldGroupCountL → Except Error FieldGroupCountL
  | [], group => .ok group
  | item :: items, group =>
      match splitn2 ':' item with
      | [] => .error (.parse (invalidItemMsg item))
      | [_] => .error (.parse (invalidItemMsg item))
      | [l, v] =>
          if label ≠ l then group_by_fields label items group
          else group_by_fields label items (bump v group)
      | _ => .error (.parse (unreachableMsg item))

/-- The line loop of `group_by`, carrying the accumulated table. -/
def group_by_from (label : Str) : List Str → FieldGroupCountL → Except Error FieldGroupCountL
  | [], group => .ok group
  | read :: rest, group =>
      let line := strPop read
      if line = [] then group_by_from label rest group
      else
        match group_by_fields label (splitAll '\t' line) group with
        | .error e => .error e
        | .ok group2 => group_by_from label rest group2

/-- `group_by(reader, label)`. -/
def group_by (reads : List Str) (label : Str) : Except Error FieldGroupCountL :=
  group_by_from label reads []

/-- The field loop of `line2record` (returns `none` on any part count other
than two). -/
def line2record_fields : List Str → RecordL → Option RecordL
  | [], record => some record
  | field :: fields, record =>
      match splitn2 ':' field with
      | [l, v] => line2record_fields fields (recInsert l v record)
      | _ => none

/-- `fn line2record(line: &String) -> Option<Record>`. -/
def line2record (line : Str) : Option RecordL :=
  line2record_fields (splitAll '\t' line) []

/-- The sort key computed inside `order_by`'s comparator: empty when
`line2record` fails or the label is absent, otherwise the label's value. -/
def sortKey (label : Str) (line : Str) : Str :=
  match line2record line with
  | none => []
  | some record =>
      match recGet label record with
      | some v => v
      | none => []

/-- Rust `String` comparison (`av.cmp(&bv)` is lexicographic; UTF-8 byte
order coincides with codepoint order), as a boolean `≤`. -/
def strLe : Str → Str → Bool
  | [], _ => true
  | _ :: _, [] => false
  | a :: as, b :: bs => if a < b then true else if b < a then false else strLe as bs

/-- Insert into a sorted list, before the first element that may follow it
(`le a b` = the comparator allows `a` before `b`). -/
def insertSorted (le : Str → Str → Bool) (a : Str) : List Str → List Str
  | [] => [a]
  | b :: l => if le a b then a :: b :: l else b :: insertSorted le a l

/-- Stable insertion sort: together with the permutation, sortedness and
stability theorems proved below, this is the unique stable sort by `le`,
hence the function `Vec::sort_by` (a stable sort) computes. -/
def sortLines (le : Str → Str → Bool) : List Str → List Str
  | [] => []
  | a :: l => insertSorted le a (sortLines le l)

/-- `order_by(reader, label)`: buffer every read verbatim (terminators
intact), then stable-sort by the derived key of each line.  The Rust
`Result` is only ever `Err` for an IO failure, which the pure source model
cannot produce. -/
def order_by (reads : List Str) (label : Str) : List Str :=
  sortLines (fun a b => strLe (sortKey label a) (sortKey label b)) reads

/-- A field is syntactically valid when it contains a colon. -/
def hasColon (f : Str) : Bool := f.contains ':'

/-- A non-blank line is well-formed when every tab-separated field has a
colon. -/
def okLine (l : Str) : Bool := (splitAll '\t' l).all hasColon

/-- A blank-or-well-formed line: `each_record` skips it or parses it
without error. -/
def lineOk (l : Str) : Bool := l.isEmpty || okLine l

/-- A read that does not abort `each_record`: blank after `pop`, or every
field of the popped remainder has a colon. -/
def readOk (r : Str) : Bool := (strPop r).isEmpty || okLine (strPop r)

/-! ### Splitting lemmas -/

theorem splitn2_shape (c : Char) (s : Str) :
    (∃ a, splitn2 c s = [a]) ∨ ∃ a b, splitn2 c s = [a, b] := by
  rcases h : splitFirst c s with ⟨a, _ | b⟩
  · exact .inl ⟨a, by simp [splitn2, h]⟩
  · exact .inr ⟨a, b, by simp [splitn2, h]⟩

theorem splitFirst_snd_none_iff (c : Char) (s : Str) :
    (splitFirst c s).2 = none ↔ c ∉ s := by
  induction s with
  | nil => simp [splitFirst]
  | cons x xs ih =>
      by_cases hx : x = c
      · subst hx
        simp [splitFirst]
      · simp [splitFirst, hx, ih, List.mem_cons, Ne.symm hx]

theorem hasColon_iff_mem (f : Str) : hasColon f = true ↔ ':' ∈ f := by
  simp [hasColon]

theorem hasColon_false_splitFirst {f : Str} (h : hasColon f = false) :
    (splitFirst ':' f).2 = none := by
  refine (splitFirst_snd_none_iff ':' f).mpr ?_
  intro hm
  rw [(hasColon_iff_mem f).mpr hm] at h
  exact Bool.noConfusion h

theorem hasColon_true_splitFirst {f : Str} (h : hasColon f = true) :
    ∃ b, (splitFirst ':' f).2 = some b := by
  rcases hs : (splitFirst ':' f).2 with _ | b
  · exact absurd ((splitFirst_snd_none_iff ':' f).mp hs) (by
      simpa using (hasColon_iff_mem f).mp h)
  · exact ⟨b, rfl⟩

theorem splitn2_of_some {c : Char} {s : Str} {b : Str}
    (h : (splitFirst c s).2 = some b) : splitn2 c s = [(splitFirst c s).1, b] := by
  rcases hs : splitFirst c s with ⟨a, o⟩
  rw [hs] at h
  simp at h
  subst h
  simp [splitn2, hs]

theorem splitn2_of_none {c : Char} {s : Str}
    (h : (splitFirst c s).2 = none) : splitn2 c s = [(splitFirst c s).1] := by
  rcases hs : splitFirst c s with ⟨a, o⟩
  rw [hs] at h
  simp at h
  subst h
  simp [splitn2, hs]

/-! ### Field-loop lemmas -/

theorem each_record_fields_ok_iff :
    ∀ (fields : List Str) (acc r : RecordL),
      each_record_fields fields acc = .ok r ↔ line2record_fields fields acc = some r := by
  intro fields
  induction fields with
  | nil => intro acc r; simp [each_record_fields, line2record_fields]
  | cons f fs ih =>
      intro acc r
      rcases hs : (splitFirst ':' f).2 with _ | b
      · simp [each_record_fields, line2record_fields, splitn2_of_none hs]
      · simp only [each_record_fields, line2record_fields, splitn2_of_some hs]
        exact ih _ r

theorem each_record_fields_err :
    ∀ (fields : List Str), (∃ f ∈ fields, hasColon f = false) →
      ∀ acc, ∃ g, each_record_fields fields acc = .error (.parse (invalidItemMsg g)) := by
  intro fields
  induction fields with
  | nil => intro h acc; simp at h
  | cons f fs ih =>
      intro h acc
      by_cases hf : hasColon f = true
      · obtain ⟨b, hb⟩ := hasColon_true_splitFirst hf
        simp only [each_record_fields, splitn2_of_some hb]
        refine ih ?_ _
        rcases h with ⟨w, hw, hwc⟩
        rcases List.mem_cons.mp hw with rfl | hw'
        · rw [hf] at hwc; exact absurd hwc (by simp)
        · exact ⟨w, hw', hwc⟩
      · have hn := hasColon_false_splitFirst (Bool.not_eq_true _ ▸ hf)
        exact ⟨f, by simp [each_record_fields, splitn2_of_none hn]⟩

theorem each_record_fields_err_shape :
    ∀ (fields : List Str) (acc : RecordL) (e : Error),
      each_record_fields fields acc = .error e → ∃ g, e = .parse (invalidItemMsg g) := by
  intro fields
  induction fields with
  | nil => intro acc e h; simp [each_record_fields] at h
  | cons f fs ih =>
      intro acc e h
      rcases hs : (splitFirst ':' f).2 with _ | b
      · simp only [each_record_fields, splitn2_of_none hs] at h
        exact ⟨f, by cases h; rfl⟩
      · simp only [each_record_fields, splitn2_of_some hs] at h
        exact ih _ _ h

theorem parse_head_fields_err_shape :
    ∀ (fields : List Str) (acc : RecordL) (e : Error),
      parse_head_fields fields acc = .error e → ∃ g, e = .parse (invalidFieldMsg g) := by
  intro fields
  induction fields with
  | nil => intro acc e h; simp [parse_head_fields] at h
  | cons f fs ih =>
      intro acc e h
      rcases hs : (splitFirst ':' f).2 with _ | b
      · simp only [parse_head_fields, splitn2_of_none hs] at h
        exact ⟨f, by cases h; rfl⟩
      · simp only [parse_head_fields, splitn2_of_some hs] at h
        exact ih _ _ h

theorem group_by_fields_ok (label : Str) :
    ∀ (fields : List Str), (∀ f ∈ fields, hasColon f = true) →
      ∀ g, ∃ g', group_by_fields label fields g = .ok g' := by
  intro fields
  induction fields with
  | nil => intro _ g; exact ⟨g, rfl⟩
  | cons f fs ih =>
      intro h g
      obtain ⟨b, hb⟩ := hasColon_true_splitFirst (h f (List.mem_cons_self f fs))
      have hrest : ∀ f' ∈ fs, hasColon f' = true := fun f' hf' => h f' (List.mem_cons_of_mem f hf')
      simp only [group_by_fields, splitn2_of_some hb]
      split
      · exact ih hrest g
      · exact ih hrest (bump b g)

theorem group_by_fields_err (label : Str) :
    ∀ (fields : List Str), (∃ f ∈ fields, hasColon f = false) →
      ∀ g, ∃ m, group_by_fields label fields g = .error (.parse (invalidItemMsg m)) := by
  intro fields
  induction fields with
  | nil => intro h _; simp at h
  | cons f fs ih =>
      intro h g
      by_cases hf : hasColon f = true
      · obtain ⟨b, hb⟩ := hasColon_true_splitFirst hf
        have hrest : ∃ w ∈ fs, hasColon w = false := by
          rcases h with ⟨w, hw, hwc⟩
          rcases List.mem_cons.mp hw with rfl | hw'
          · rw [hf] at hwc; exact absurd hwc (by simp)
          · exact ⟨w, hw', hwc⟩
        simp only [group_by_fields, splitn2_of_some hb]
        split
        · exact ih hrest g
        · exact ih hrest (bump b g)
      · have hn := hasColon_false_splitFirst (Bool.not_eq_true _ ▸ hf)
        exact ⟨f, by simp [group_by_fields, splitn2_of_none hn]⟩

theorem group_by_fields_err_shape (label : Str) :
    ∀ (fields : List Str) (g : FieldGroupCountL) (e : Error),
      group_by_fields label fields g = .error e → ∃ m, e = .parse (invalidItemMsg m) := by
  intro fields
  induction fields with
  | nil => intro g e h; simp [group_by_fields] at h
  | cons f fs ih =>
      intro g e h
      rcases hs : (splitFirst ':' f).2 with _ | b
      · simp only [group_by_fields, splitn2_of_none hs] at h
        exact ⟨f, by cases h; rfl⟩
      · simp only [group_by_fields, splitn2_of_some hs] at h
        split at h
        · exact ih _ _ h
        · exact ih _ _ h

/-! ### Loop-level lemmas -/

theorem strPop_append_newline (l : Str) : strPop (l ++ ['\n']) = l := by
  simp [strPop]

theorem okLine_false_bad {l : Str} (h : ¬ okLine l = true) :
    ∃ f ∈ splitAll '\t' l, hasColon f = false := by
  have h' : (splitAll '\t' l).all hasColon = false := by
    rw [okLine] at h
    exact Bool.eq_false_iff.mpr h
  rcases List.all_eq_false.mp h' with ⟨f, hf, hfc⟩
  exact ⟨f, hf, by simpa using hfc⟩

theorem each_record_fields_ok_of_all :
    ∀ (fields : List Str), (∀ f ∈ fields, hasColon f = true) →
      ∀ acc, ∃ r, each_record_fields fields acc = .ok r := by
  intro fields
  induction fields with
  | nil => intro _ acc; exact ⟨acc, rfl⟩
  | cons f fs ih =>
      intro h acc
      obtain ⟨b, hb⟩ := hasColon_true_splitFirst (h f (List.mem_cons_self f fs))
      simp only [each_record_fields, splitn2_of_some hb]
      exact ih (fun f' hf' => h f' (List.mem_cons_of_mem f hf')) _

theorem each_record_fst (reads : List Str) :
    (each_record reads).1
      = ((reads.takeWhile readOk).filter (fun r => !(strPop r).isEmpty)).filterMap
          (fun r => line2record (strPop r)) := by
  induction reads with
  | nil => rfl
  | cons r rest ih =>
      by_cases hblank : strPop r = []
      · have hro : readOk r = true := by simp [readOk, hblank]
        simp [each_record, hblank, List.takeWhile_cons, hro, List.filter_cons, ih]
      · by_cases hok : okLine (strPop r) = true
        · have hall : ∀ f ∈ splitAll '\t' (strPop r), hasColon f = true :=
            List.all_eq_true.mp hok
          obtain ⟨rec, hrec⟩ := each_record_fields_ok_of_all _ hall []
          have hl2r : line2record (strPop r) = some rec :=
            (each_record_fields_ok_iff _ _ _).mp hrec
          have hro : readOk r = true := by simp [readOk, hok]
          simp [each_record, hblank, hrec, List.takeWhile_cons, hro, List.filter_cons,
            hblank, List.filterMap_cons, hl2r, ih]
        · have hbad := okLine_false_bad hok
          obtain ⟨g, hg⟩ := each_record_fields_err _ hbad []
          have hro : readOk r = false := by simp [readOk, hblank, hok]
          simp [each_record, hblank, hg, List.takeWhile_cons, hro]

theorem each_record_snd_none_iff (reads : List Str) :
    (each_record reads).2 = none ↔ reads.all readOk = true := by
  induction reads with
  | nil => simp [each_record]
  | cons r rest ih =>
      by_cases hblank : strPop r = []
      · have hro : readOk r = true := by simp [readOk, hblank]
        simp [each_record, hblank, hro, ih]
      · by_cases hok : okLine (strPop r) = true
        · have hall : ∀ f ∈ splitAll '\t' (strPop r), hasColon f = true :=
            List.all_eq_true.mp hok
          obtain ⟨rec, hrec⟩ := each_record_fields_ok_of_all _ hall []
          have hro : readOk r = true := by simp [readOk, hok]
          simp [each_record, hblank, hrec, hro, ih]
        · have hbad := okLine_false_bad hok
          obtain ⟨g, hg⟩ := each_record_fields_err _ hbad []
          have hro : readOk r = false := by simp [readOk, hblank, hok]
          simp [each_record, hblank, hg, hro]

theorem each_record_snd_err_shape (reads : List Str) :
    ∀ e, (each_record reads).2 = some e → ∃ m, e = .parse (invalidItemMsg m) := by
  induction reads with
  | nil => intro e h; simp [each_record] at h
  | cons r rest ih =>
      intro e h
      by_cases hblank : strPop r = []
      · rw [each_record, if_pos hblank] at h
        exact ih e h
      · rw [each_record, if_neg hblank] at h
        rcases hf : each_record_fields (splitAll '\t' (strPop r)) [] with e' | rec
        · rw [hf] at h
          simp at h
          exact h ▸ each_record_fields_err_shape _ _ _ hf
        · rw [hf] at h
          simp at h
          exact ih e h

theorem group_by_from_err (label : Str) :
    ∀ (reads : List Str),
      (∃ r ∈ reads, (strPop r).isEmpty = false ∧
        ∃ f ∈ splitAll '\t' (strPop r), hasColon f = false) →
      ∀ g, ∃ m, group_by_from label reads g = .error (.parse (invalidItemMsg m)) := by
  intro reads
  induction reads with
  | nil => intro h _; simp at h
  | cons r rest ih =>
      intro h g
      by_cases hblank : strPop r = []
      · have hrest : ∃ w ∈ rest, (strPop w).isEmpty = false ∧
            ∃ f ∈ splitAll '\t' (strPop w), hasColon f = false := by
          rcases h with ⟨w, hw, hwe, hwf⟩
          rcases List.mem_cons.mp hw with rfl | hw'
          · rw [hblank] at hwe; simp at hwe
          · exact ⟨w, hw', hwe, hwf⟩
        obtain ⟨m, hm⟩ := ih hrest g
        exact ⟨m, by rw [group_by_from, if_pos hblank]; exact hm⟩
      · by_cases hok : okLine (strPop r) = true
        · have hall : ∀ f ∈ splitAll '\t' (strPop r), hasColon f = true :=
            List.all_eq_true.mp hok
          obtain ⟨g2, hg2⟩ := group_by_fields_ok label _ hall g
          have hrest : ∃ w ∈ rest, (strPop w).isEmpty = false ∧
              ∃ f ∈ splitAll '\t' (strPop w), hasColon f = false := by
            rcases h with ⟨w, hw, hwe, hwf⟩
            rcases List.mem_cons.mp hw with rfl | hw'
            · rcases hwf with ⟨f, hf, hfc⟩
              rw [hall f hf] at hfc
              exact absurd hfc (by simp)
            · exact ⟨w, hw', hwe, hwf⟩
          obtain ⟨m, hm⟩ := ih hrest g2
          refine ⟨m, ?_⟩
          rw [group_by_from, if_neg hblank]
          simp only [hg2]
          exact hm
        · have hbad := okLine_false_bad hok
          obtain ⟨m, hm⟩ := group_by_fields_err label _ hbad g
          refine ⟨m, ?_⟩
          rw [group_by_from, if_neg hblank]
          simp only [hm]

theorem group_by_from_err_shape (label : Str) :
    ∀ (reads : List Str) (g : FieldGroupCountL) (e : Error),
      group_by_from label reads g = .error e → ∃ m, e = .parse (invalidItemMsg m) := by
  intro reads
  induction reads with
  | nil => intro g e h; rw [group_by_from] at h; exact Except.noConfusion h
  | cons r rest ih =>
      intro g e h
      by_cases hblank : strPop r = []
      · rw [group_by_from, if_pos hblank] at h
        exact ih _ _ h
      · rw [group_by_from, if_neg hblank] at h
        rcases hf : group_by_fields label (splitAll '\t' (strPop r)) g with e' | g2
        · rw [hf] at h
          simp at h
          exact h ▸ group_by_fields_err_shape label _ _ _ hf
        · rw [hf] at h
          exact ih _ _ h

theorem parse_head_loop_blank :
    ∀ (fuel : Nat) (reads : List Str), (∀ r ∈ reads, utf8Len r ≤ 1) →
      parse_head_loop reads fuel = none := by
  intro fuel
  induction fuel with
  | zero => intro reads _; rfl
  | succ n ih =>
      intro reads h
      cases reads with
      | nil =>
          simp only [parse_head_loop, read_line]
          rw [if_pos (Or.inl trivial)]
          exact ih [] (by simp)
      | cons r rest =>
          have h1 : utf8Len r = 0 ∨ utf8Len r = 1 := by
            have := h r (List.mem_cons_self r rest)
            omega
          rw [parse_head_loop]
          simp only [read_line]
          rw [if_pos h1]
          exact ih rest (fun x hx => h x (List.mem_cons_of_mem _ hx))

theorem parse_head_err_shape (reads : List Str) (fuel : Nat) (e : Error)
    (h : parse_head reads fuel = some (.error e)) :
    ∃ m, e = .parse (invalidFieldMsg m) := by
  rw [parse_head] at h
  rcases hl : parse_head_loop reads fuel with _ | found
  · rw [hl] at h; exact Option.noConfusion h
  · rw [hl] at h
    simp at h
    exact parse_head_fields_err_shape _ _ _ h

/-! ### Order and stable-sort lemmas -/

theorem strLe_total : ∀ a b : Str, (strLe a b || strLe b a) = true := by
  intro a
  induction a with
  | nil => intro b; simp [strLe]
  | cons x as ih =>
      intro b
      cases b with
      | nil => simp [strLe]
      | cons y bs =>
          rcases lt_trichotomy x y with hxy | hxy | hxy
          · simp [strLe, hxy]
          · subst hxy
            simp [strLe, lt_irrefl, ih bs]
          · simp [strLe, hxy, lt_asymm hxy]

theorem strLe_refl (a : Str) : strLe a a = true := by
  have := strLe_total a a
  simpa using this

theorem strLe_trans : ∀ a b c : Str,
    strLe a b = true → strLe b c = true → strLe a c = true := by
  intro a
  induction a with
  | nil => intro b c _ _; simp [strLe]
  | cons x as ih =>
      intro b c hab hbc
      cases b with
      | nil => simp [strLe] at hab
      | cons y bs =>
          cases c with
          | nil => simp [strLe] at hbc
          | cons z cs =>
              rcases lt_trichotomy x y with hxy | hxy | hxy
              · rcases lt_trichotomy y z with hyz | hyz | hyz
                · simp [strLe, lt_trans hxy hyz]
                · subst hyz; simp [strLe, hxy]
                · rw [strLe, if_neg (lt_asymm hyz), if_pos hyz] at hbc
                  exact Bool.noConfusion hbc
              · subst hxy
                rcases lt_trichotomy x z with hyz | hyz | hyz
                · simp [strLe, hyz]
                · subst hyz
                  rw [strLe, if_neg (lt_irrefl x), if_neg (lt_irrefl x)] at hab hbc
                  rw [strLe, if_neg (lt_irrefl x), if_neg (lt_irrefl x)]
                  exact ih bs cs hab hbc
                · rw [strLe, if_neg (lt_asymm hyz), if_pos hyz] at hbc
                  exact Bool.noConfusion hbc
              · rw [strLe, if_neg (lt_asymm hxy), if_pos hxy] at hab
                exact Bool.noConfusion hab

theorem insertSorted_perm (le : Str → Str → Bool) (a : Str) :
    ∀ l : List Str, (insertSorted le a l).Perm (a :: l) := by
  intro l
  induction l with
  | nil => simp [insertSorted]
  | cons b l ih =>
      by_cases h : le a b
      · simp [insertSorted, h]
      · rw [insertSorted, if_neg h]
        exact (ih.cons b).trans (List.Perm.swap a b l)

theorem sortLines_perm (le : Str → Str → Bool) :
    ∀ l : List Str, (sortLines le l).Perm l := by
  intro l
  induction l with
  | nil => simp [sortLines]
  | cons a l ih =>
      rw [sortLines]
      exact (insertSorted_perm le a (sortLines le l)).trans (ih.cons a)

theorem insertSorted_pairwise (le : Str → Str → Bool)
    (htot : ∀ x y, (le x y || le y x) = true)
    (htrans : ∀ x y z, le x y = true → le y z = true → le x z = true)
    (a : Str) :
    ∀ l : List Str, l.Pairwise (fun x y => le x y = true) →
      (insertSorted le a l).Pairwise (fun x y => le x y = true) := by
  intro l
  induction l with
  | nil => intro _; simp [insertSorted]
  | cons b l ih =>
      intro hl
      rcases List.pairwise_cons.mp hl with ⟨hb, hl'⟩
      by_cases h : le a b = true
      · rw [insertSorted, if_pos h]
        refine List.pairwise_cons.mpr ⟨?_, hl⟩
        intro a' ha'
        rcases List.mem_cons.mp ha' with rfl | ha''
        · exact h
        · exact htrans a b a' h (hb a' ha'')
      · have hba : le b a = true := by
          rcases Bool.or_eq_true_iff.mp (htot a b) with hab | hba
          · exact absurd hab h
          · exact hba
        rw [insertSorted, if_neg h]
        refine List.pairwise_cons.mpr ⟨?_, ih hl'⟩
        intro a' ha'
        rcases (insertSorted_perm le a l).mem_iff.mp ha' with ha''
        rcases List.mem_cons.mp ha'' with rfl | ha'''
        · exact hba
        · exact hb a' ha'''

theorem sortLines_pairwise (le : Str → Str → Bool)
    (htot : ∀ x y, (le x y || le y x) = true)
    (htrans : ∀ x y z, le x y = true → le y z = true → le x z = true) :
    ∀ l : List Str, (sortLines le l).Pairwise (fun x y => le x y = true) := by
  intro l
  induction l with
  | nil => simp [sortLines]
  | cons a l ih =>
      rw [sortLines]
      exact insertSorted_pairwise le htot htrans a _ ih

theorem filter_insertSorted (le : Str → Str → Bool) (p : Str → Bool)
    (hp : ∀ x y, p x = true → p y = true → le x y = true) (a : Str) :
    ∀ l : List Str,
      (insertSorted le a l).filter p
        = if p a then a :: l.filter p else l.filter p := by
  intro l
  induction l with
  | nil => by_cases hpa : p a = true <;> simp [insertSorted, List.filter_cons, hpa]
  | cons b l ih =>
      by_cases hab : le a b = true
      · rw [insertSorted, if_pos hab]
        by_cases hpa : p a = true <;> simp [List.filter_cons, hpa]
      · rw [insertSorted, if_neg hab]
        by_cases hpb : p b = true
        · by_cases hpa : p a = true
          · exact absurd (hp a b hpa hpb) hab
          · simp [List.filter_cons, hpb, hpa, ih, Bool.eq_false_iff.mpr hpa]
        · simp [List.filter_cons, hpb, ih]

theorem filter_sortLines (le : Str → Str → Bool) (p : Str → Bool)
    (hp : ∀ x y, p x = true → p y = true → le x y = true) :
    ∀ l : List Str, (sortLines le l).filter p = l.filter p := by
  intro l
  induction l with
  | nil => rfl
  | cons a l ih =>
      rw [sortLines, filter_insertSorted le p hp a _]
      by_cases hpa : p a = true <;> simp [List.filter_cons, hpa, ih]

/-! ### Record lemmas -/

/-- The keys of a modelled record. -/
def recKeys (r : RecordL) : List Str := r.map Prod.fst

/-- The entry a well-formed field contributes: label before the first colon,
value after it. -/
def fieldEntry (f : Str) : Str × Str :=
  ((splitFirst ':' f).1, ((splitFirst ':' f).2).getD [])

theorem recInsert_not_mem :
    ∀ (r : RecordL) (k : Str), k ∉ recKeys r → ∀ v, recInsert k v r = r ++ [(k, v)] := by
  intro r
  induction r with
  | nil => intro k _ v; rfl
  | cons q r ih =>
      intro k hk v
      rcases q with ⟨k', v'⟩
      have hk' : k' ≠ k := by
        intro h
        exact hk (by simp [recKeys, h])
      rw [recInsert, if_neg hk']
      rw [ih k (fun hm => hk (by simp [recKeys] at hm ⊢; exact .inr hm)) v]
      simp

theorem recGet_map_fieldEntry :
    ∀ (fields : List Str) (f : Str), f ∈ fields →
      fields.Pairwise (fun f g => (splitFirst ':' f).1 ≠ (splitFirst ':' g).1) →
      recGet (splitFirst ':' f).1 (fields.map fieldEntry)
        = some (((splitFirst ':' f).2).getD []) := by
  intro fields
  induction fields with
  | nil => intro f hf _; simp at hf
  | cons g fs ih =>
      intro f hf hpair
      rcases List.mem_cons.mp hf with rfl | hf'
      · simp [recGet, fieldEntry]
      · have hne : (splitFirst ':' g).1 ≠ (splitFirst ':' f).1 :=
          (List.pairwise_cons.mp hpair).1 f hf'
        simp only [List.map_cons, fieldEntry, recGet, if_neg hne]
        exact ih f hf' (List.pairwise_cons.mp hpair).2

theorem line2record_fields_distinct :
    ∀ (fields : List Str) (acc : RecordL),
      (∀ f ∈ fields, hasColon f = true) →
      fields.Pairwise (fun f g => (splitFirst ':' f).1 ≠ (splitFirst ':' g).1) →
      (∀ f ∈ fields, (splitFirst ':' f).1 ∉ recKeys acc) →
      line2record_fields fields acc = some (acc ++ fields.map fieldEntry) := by
  intro fields
  induction fields with
  | nil => intro acc _ _ _; simp [line2record_fields]
  | cons f fs ih =>
      intro acc hcol hpair hkeys
      obtain ⟨b, hb⟩ := hasColon_true_splitFirst (hcol f (List.mem_cons_self f fs))
      simp only [line2record_fields, splitn2_of_some hb]
      have hins : recInsert (splitFirst ':' f).1 b acc = acc ++ [fieldEntry f] := by
        rw [recInsert_not_mem acc _ (hkeys f (List.mem_cons_self f fs)) b]
        simp [fieldEntry, hb]
      rw [hins]
      have hkeys' : ∀ g ∈ fs, (splitFirst ':' g).1 ∉ recKeys (acc ++ [fieldEntry f]) := by
        intro g hg hm
        simp only [recKeys, List.map_append, List.mem_append] at hm
        rcases hm with hm | hm
        · exact hkeys g (List.mem_cons_of_mem f hg) hm
        · simp [fieldEntry] at hm
          exact (List.pairwise_cons.mp hpair).1 g hg hm.symm
      rw [ih (acc ++ [fieldEntry f]) (fun g hg => hcol g (List.mem_cons_of_mem f hg))
        (List.pairwise_cons.mp hpair).2 hkeys']
      simp

/-! ### Error-message lemmas -/

theorem invalidFieldMsg_ne_unreachableMsg (f g : Str) :
    invalidFieldMsg f ≠ unreachableMsg g := by
  intro h
  have h1 : ("invalid ltsv field: ").toList = 'i' :: ("nvalid ltsv field: ").toList := by
    decide
  have h2 : ("unreachable error: ").toList = 'u' :: ("nreachable error: ").toList := by
    decide
  rw [invalidFieldMsg, unreachableMsg, h1, h2] at h
  simp only [List.cons_append] at h
  exact absurd (List.cons.inj h).1 (by decide)

theorem invalidItemMsg_ne_unreachableMsg (f g : Str) :
    invalidItemMsg f ≠ unreachableMsg g := by
  intro h
  have h1 : ("invalid ltsv item: ").toList = 'i' :: ("nvalid ltsv item: ").toList := by
    decide
  have h2 : ("unreachable error: ").toList = 'u' :: ("nreachable error: ").toList := by
    decide
  rw [invalidItemMsg, unreachableMsg, h1, h2] at h
  simp only [List.cons_append] at h
  exact absurd (List.cons.inj h).1 (by decide)

/-! ### Further helper lemmas -/

theorem readOk_append_newline (l : Str) : readOk (l ++ ['\n']) = lineOk l := by
  simp [readOk, lineOk, strPop_append_newline]

theorem takeWhile_of_all {p : Str → Bool} :
    ∀ {l : List Str}, l.all p = true → l.takeWhile p = l := by
  intro l
  induction l with
  | nil => intro _; rfl
  | cons a l ih =>
      intro h
      rcases List.all_eq_true.mp h a (List.mem_cons_self a l) with ha
      rw [List.takeWhile_cons, if_pos ha, ih]
      rw [List.all_eq_true]
      intro x hx
      exact List.all_eq_true.mp h x (List.mem_cons_of_mem a hx)

/-! ### Claim theorems -/

/-- C1 (the specified behaviour is violated by the code): `parse_head`'s skip
loop treats `Ok(0)` — end of stream — exactly like `Ok(1)` and `continue`s,
so on a source that reaches end-of-stream while only blank or
single-byte lines have been seen, the loop never terminates: after any
number of iterations it has produced no result, and no distinguished
"no head record found" failure is ever reported. -/
theorem parse_head_eof_skip_spins (reads : List Str)
    (h : ∀ r ∈ reads, utf8Len r ≤ 1) :
    ∀ fuel, parse_head reads fuel = none := by
  intro fuel
  rw [parse_head, parse_head_loop_blank fuel reads h]

/-- Witness for `parse_head_eof_skip_spins`: a source holding one blank line
and then end-of-stream leaves `parse_head` spinning after 1000 iterations. -/
theorem parse_head_eof_skip_spins_witness :
    parse_head (["\n".toList]) 1000 = none :=
  parse_head_eof_skip_spins _ (by decide) 1000

/-- C2: `each_record` visits exactly the non-blank well-formed lines before
the first malformed one, in order (each parsed to its record); it succeeds
iff every line is blank or well-formed, and otherwise the outcome is a Parse
error (reported at the first malformed line, with nothing after it
visited — the visited list stops at the `takeWhile`). -/
theorem each_record_visits_wf (lines : List Str) :
    (each_record (lines.map (fun l => l ++ ['\n']))).1
        = ((lines.takeWhile lineOk).filter (fun l => !l.isEmpty)).filterMap line2record
  ∧ ((each_record (lines.map (fun l => l ++ ['\n']))).2 = none
        ↔ lines.all lineOk = true)
  ∧ (∀ e, (each_record (lines.map (fun l => l ++ ['\n']))).2 = some e →
        ∃ m, e = Error.parse m) := by
  refine ⟨?_, ?_, ?_⟩
  · rw [each_record_fst]
    rw [List.takeWhile_map, List.filter_map, List.filterMap_map]
    simp only [Function.comp_def]
    simp [readOk_append_newline, strPop_append_newline]
  · rw [each_record_snd_none_iff, List.all_map]
    simp only [Function.comp_def]
    simp [readOk_append_newline]
  · intro e he
    obtain ⟨m, hm⟩ := each_record_snd_err_shape _ e he
    exact ⟨invalidItemMsg m, hm⟩

/-- Witness for `each_record_visits_wf` at a concrete input with a blank
line, a malformed line and a trailing well-formed line. -/
theorem each_record_visits_wf_witness :
    ∃ m, Error.parse (("invalid ltsv item: bad").toList) = Error.parse m :=
  (each_record_visits_wf ["a:1".toList, [], "bad".toList, "b:2".toList]).2.2
    (Error.parse (("invalid ltsv item: bad").toList)) (by decide)

/-- C3: `order_by` returns exactly the buffered input lines (a permutation,
content unchanged), in ascending lexicographic order of the derived sort
key (empty for an unparsable line or an absent label, otherwise the label's
value), and the sort is stable: for every key, the lines carrying that key
appear in their original relative order. -/
theorem order_by_sorted_stable (reads : List Str) (label : Str) :
    (order_by reads label).Perm reads
  ∧ (order_by reads label).Pairwise
      (fun a b => strLe (sortKey label a) (sortKey label b) = true)
  ∧ (∀ k, (order_by reads label).filter (fun l => sortKey label l == k)
        = reads.filter (fun l => sortKey label l == k)) := by
  refine ⟨sortLines_perm _ reads, ?_, ?_⟩
  · exact sortLines_pairwise
      (fun a b => strLe (sortKey label a) (sortKey label b))
      (fun x y => strLe_total _ _) (fun x y z => strLe_trans _ _ _) reads
  · intro k
    refine filter_sortLines
      (fun a b => strLe (sortKey label a) (sortKey label b))
      (fun l => sortKey label l == k) ?_ reads
    intro x y hx hy
    have hx' : sortKey label x = k := by simpa using hx
    have hy' : sortKey label y = k := by simpa using hy
    show strLe (sortKey label x) (sortKey label y) = true
    rw [hx', hy']
    exact strLe_refl k

/-- C4: a field without a colon on any non-blank line makes the whole
`group_by` call fail with a Parse error, regardless of the field's label
(the hypothesis does not mention the designated label at all). -/
theorem group_by_validates_all_fields (reads : List Str) (label : Str)
    (h : ∃ r ∈ reads, (strPop r).isEmpty = false ∧
          ∃ f ∈ splitAll '\t' (strPop r), hasColon f = false) :
    ∃ m, group_by reads label = .error (.parse m) := by
  obtain ⟨m, hm⟩ := group_by_from_err label reads h []
  exact ⟨invalidItemMsg m, hm⟩

/-- Witness for `group_by_validates_all_fields`: the colonless field `bad`
fails the call although the designated label is `x`. -/
theorem group_by_validates_all_fields_witness :
    ∃ m, group_by (["a:1\tbad\n".toList]) ("x".toList) = .error (.parse m) :=
  group_by_validates_all_fields _ _ (by decide)

/-- C5 fails as stated: on the well-formed line `a:1\ta:2` (two
tab-separated tokens, each with a colon) the parsed record has one entry,
not two, and maps `a` to `2`, so the token `a:1` is not reflected:
`HashMap::insert` is last-write-wins on duplicate labels. -/
theorem parse_line_dup_label_cex :
    (splitAll '\t' (("a:1\ta:2").toList)).length = 2
  ∧ line2record (("a:1\ta:2").toList) = some [("a".toList, "2".toList)]
  ∧ (line2record (("a:1\ta:2").toList)).map List.length = some 1 := by
  decide

/-- C5 (amended with pairwise-distinct labels): for a well-formed line whose
tokens carry pairwise-distinct labels, parsing yields a record with exactly
one entry per token, mapping each token's label to its value. -/
theorem line2record_wf_distinct (l : Str)
    (hcolon : ∀ f ∈ splitAll '\t' l, hasColon f = true)
    (hdist : (splitAll '\t' l).Pairwise
        (fun f g => (splitFirst ':' f).1 ≠ (splitFirst ':' g).1)) :
    ∃ r, line2record l = some r
      ∧ r.length = (splitAll '\t' l).length
      ∧ ∀ f ∈ splitAll '\t' l,
          recGet (splitFirst ':' f).1 r = some (((splitFirst ':' f).2).getD []) := by
  refine ⟨(splitAll '\t' l).map fieldEntry, ?_, by simp, ?_⟩
  · rw [line2record, line2record_fields_distinct _ [] hcolon hdist (by simp [recKeys])]
    simp
  · intro f hf
    exact recGet_map_fieldEntry _ f hf hdist

/-- Witness for `line2record_wf_distinct` at the line `a:1\tb:2`. -/
theorem line2record_wf_distinct_witness :
    (line2record (("a:1\tb:2").toList)).isSome = true := by
  obtain ⟨r, h1, _, _⟩ := line2record_wf_distinct (("a:1\tb:2").toList)
    (by decide) (by decide)
  rw [h1]
  rfl

/-- C6 (the specified behaviour is violated by the code): `line.pop()`
removes the last character unconditionally (the comment says
`// remove '\n'`), so a final line with no trailing terminator loses a
content character: the single unterminated read `a:1` is parsed as `a:`
and visited as the record `{"a": ""}` instead of `{"a": "1"}`. -/
theorem each_record_pop_loses_char :
    each_record [("a:1").toList] = ([[("a".toList, [])]], none) := by decide

/-- C7: on the source reading `"\n"`, `"\n"`, then the final unterminated
line `a:1\tb:2`, `parse_head` skips the two one-byte lines and returns the
record mapping `a` to `1` and `b` to `2` (no terminator in any value). -/
theorem parse_head_blank_then_record :
    parse_head (["\n", "\n", "a:1\tb:2"].map String.toList) 3
      = some (.ok [("a".toList, "1".toList), ("b".toList, "2".toList)]) := by decide

/-- C8 fails as stated on inputs with a malformed line: sorting can move the
malformed line before well-formed ones, so the records visited before the
Parse error differ (here one record versus none). -/
theorem order_by_roundtrip_cex :
    ¬ ((each_record (order_by (["b:2\n", "bad\n"].map String.toList)
          ("b".toList))).1.Perm
        ((each_record (["b:2\n", "bad\n"].map String.toList)).1)) := by
  intro hp
  have hlen := hp.length_eq
  rw [show (each_record (order_by (["b:2\n", "bad\n"].map String.toList)
        ("b".toList))).1.length = 0 from by decide,
      show ((each_record (["b:2\n", "bad\n"].map String.toList)).1).length = 1
        from by decide] at hlen
  exact absurd hlen (by decide)

/-- C8 (amended to inputs on which `each_record` succeeds): when the direct
run succeeds, running `each_record` on `order_by`'s output also succeeds and
visits the same multiset of records — sorting never alters line content. -/
theorem order_by_roundtrip_of_ok (reads : List Str) (label : Str)
    (h : (each_record reads).2 = none) :
    (each_record (order_by reads label)).2 = none
  ∧ ((each_record (order_by reads label)).1).Perm ((each_record reads).1) := by
  have hall : reads.all readOk = true := (each_record_snd_none_iff reads).mp h
  have hperm : (order_by reads label).Perm reads := sortLines_perm _ reads
  have hall' : (order_by reads label).all readOk = true := by
    rw [List.all_eq_true] at hall ⊢
    intro r hr
    exact hall r (hperm.mem_iff.mp hr)
  constructor
  · exact (each_record_snd_none_iff _).mpr hall'
  · rw [each_record_fst, each_record_fst, takeWhile_of_all hall',
      takeWhile_of_all hall]
    exact (hperm.filter _).filterMap _

/-- Witness for `order_by_roundtrip_of_ok` on two well-formed lines. -/
theorem order_by_roundtrip_of_ok_witness :
    (each_record (order_by (["b:2\n", "a:1\n"].map String.toList)
        ("a".toList))).2 = none :=
  (order_by_roundtrip_of_ok _ _ (by decide)).1

/-- C9: `splitn(2, ':')` always yields exactly one or two parts, so the
match arm building the `unreachable error: …` message is dead code: no
error returned by `parse_head`, `each_record` or `group_by` ever carries
that message. -/
theorem splitn2_no_unreachable :
    (∀ f : Str, (splitn2 ':' f).length = 1 ∨ (splitn2 ':' f).length = 2)
  ∧ (∀ reads fuel e, parse_head reads fuel = some (.error e) →
        ∀ g, e ≠ .parse (unreachableMsg g))
  ∧ (∀ reads e, (each_record reads).2 = some e →
        ∀ g, e ≠ .parse (unreachableMsg g))
  ∧ (∀ reads label e, group_by reads label = .error e →
        ∀ g, e ≠ .parse (unreachableMsg g)) := by
  refine ⟨?_, ?_, ?_, ?_⟩
  · intro f
    rcases splitn2_shape ':' f with ⟨a, h⟩ | ⟨a, b, h⟩ <;> simp [h]
  · intro reads fuel e h g
    obtain ⟨m, hm⟩ := parse_head_err_shape reads fuel e h
    rw [hm]
    intro hEq
    exact invalidFieldMsg_ne_unreachableMsg m g (Error.parse.inj hEq)
  · intro reads e h g
    obtain ⟨m, hm⟩ := each_record_snd_err_shape reads e h
    rw [hm]
    intro hEq
    exact invalidItemMsg_ne_unreachableMsg m g (Error.parse.inj hEq)
  · intro reads label e h g
    obtain ⟨m, hm⟩ := group_by_from_err_shape label reads [] e h
    rw [hm]
    intro hEq
    exact invalidItemMsg_ne_unreachableMsg m g (Error.parse.inj hEq)

/-- Witness for `splitn2_no_unreachable`: concrete failing runs of all three
operations produce the `invalid ltsv …` message, never the unreachable
one. -/
theorem splitn2_no_unreachable_witness :
    (Error.parse (invalidFieldMsg ("bad".toList))
        ≠ Error.parse (unreachableMsg ("bad".toList)))
  ∧ (Error.parse (invalidItemMsg ("bad".toList))
        ≠ Error.parse (unreachableMsg ("bad".toList)))
  ∧ (Error.parse (invalidItemMsg ("bad".toList))
        ≠ Error.parse (unreachableMsg ("x".toList))) := by
  refine ⟨?_, ?_, ?_⟩
  · exact splitn2_no_unreachable.2.1 (["bad\tx\n".toList]) 1 _ (by decide)
      ("bad".toList)
  · exact splitn2_no_unreachable.2.2.1 (["bad\n".toList]) _ (by decide)
      ("bad".toList)
  · exact splitn2_no_unreachable.2.2.2 (["bad\n".toList]) ("s".toList) _
      (by decide) ("x".toList)

/-! ### Wrapped-count lemmas (C10) -/

theorem wrap32_small {n : Int} (h0 : -2147483648 ≤ n) (h1 : n < 2147483648) :
    wrap32 n = n := by
  unfold wrap32
  rw [Int.emod_eq_of_lt (by omega) (by omega)]
  omega

theorem wrap32_sub_mul (a q : Int) : wrap32 (a - 4294967296 * q) = wrap32 a := by
  unfold wrap32
  have h : a - 4294967296 * q + 2147483648
      = (a + 2147483648) + 4294967296 * (-q) := by ring
  rw [h, Int.add_mul_emod_self_left]

theorem wrap32_wrap32_add (x y : Int) :
    wrap32 (wrap32 x + y) = wrap32 (x + y) := by
  have hx : wrap32 x = x - 4294967296 * ((x + 2147483648) / 4294967296) := by
    unfold wrap32
    rw [Int.emod_def]
    ring
  rw [hx]
  have h : x - 4294967296 * ((x + 2147483648) / 4294967296) + y
      = (x + y) - 4294967296 * ((x + 2147483648) / 4294967296) := by ring
  rw [h, wrap32_sub_mul]

theorem wrap32_idem (x : Int) : wrap32 (wrap32 x) = wrap32 x := by
  have h := wrap32_wrap32_add x 0
  simpa using h

theorem wrap32_one : wrap32 (0 + 1) = 1 := by norm_num [wrap32]

/-- Invariant carried by the grouping loops: every stored count is the
`i32`-wrapped image of a positive occurrence number bounded by the number of
fields consumed so far. -/
def countInv (b : Nat) (g : FieldGroupCountL) : Prop :=
  ∀ p ∈ g, ∃ n : Nat, 1 ≤ n ∧ n ≤ b ∧ p.2 = wrap32 n

theorem countInv_mono {b b' : Nat} (hb : b ≤ b') {g : FieldGroupCountL}
    (h : countInv b g) : countInv b' g := by
  intro p hp
  obtain ⟨n, h1, h2, h3⟩ := h p hp
  exact ⟨n, h1, le_trans h2 hb, h3⟩

theorem bump_countInv {b : Nat} {g : FieldGroupCountL} (h : countInv b g)
    (k : Str) : countInv (b + 1) (bump k g) := by
  induction g with
  | nil =>
      intro p hp
      simp only [bump] at hp
      rcases List.mem_singleton.mp hp with rfl
      refine ⟨1, le_refl 1, by omega, ?_⟩
      show wrap32 (0 + 1) = wrap32 (((1 : Nat) : Int))
      norm_num
  | cons q g ih =>
      intro p hp
      rcases q with ⟨k', c⟩
      by_cases hk : k' = k
      · rw [bump, if_pos hk] at hp
        rcases List.mem_cons.mp hp with rfl | hp'
        · obtain ⟨n, h1, h2, h3⟩ := h (k', c) (List.mem_cons_self _ _)
          refine ⟨n + 1, by omega, by omega, ?_⟩
          have h3' : c = wrap32 ((n : Nat) : Int) := h3
          show wrap32 (c + 1) = wrap32 (((n + 1 : Nat) : Int))
          rw [h3', wrap32_wrap32_add]
          congr 1
        · obtain ⟨n, h1, h2, h3⟩ := h p (List.mem_cons_of_mem _ hp')
          exact ⟨n, h1, by omega, h3⟩
      · rw [bump, if_neg hk] at hp
        rcases List.mem_cons.mp hp with rfl | hp'
        · obtain ⟨n, h1, h2, h3⟩ := h _ (List.mem_cons_self _ _)
          exact ⟨n, h1, by omega, h3⟩
        · exact ih (fun q hq => h q (List.mem_cons_of_mem _ hq)) p hp'

theorem group_by_fields_countInv (label : Str) :
    ∀ (fields : List Str) (g g' : FieldGroupCountL) (b : Nat), countInv b g →
      group_by_fields label fields g = .ok g' →
      countInv (b + fields.length) g' := by
  intro fields
  induction fields with
  | nil =>
      intro g g' b h hok
      simp only [group_by_fields] at hok
      cases hok
      exact countInv_mono (by omega) h
  | cons f fs ih =>
      intro g g' b h hok
      rcases hs : (splitFirst ':' f).2 with _ | v
      · simp only [group_by_fields, splitn2_of_none hs] at hok
        exact Except.noConfusion hok
      · simp only [group_by_fields, splitn2_of_some hs] at hok
        split at hok
        · refine countInv_mono ?_ (ih _ _ b h hok)
          simp only [List.length_cons]
          omega
        · refine countInv_mono ?_ (ih _ _ (b + 1) (bump_countInv h v) hok)
          simp only [List.length_cons]
          omega

/-- The total number of tab-separated fields over all (popped) reads: an
upper bound on how often any one count can be incremented. -/
def totalFields (reads : List Str) : Nat :=
  (reads.map (fun r => (splitAll '\t' (strPop r)).length)).sum

theorem group_by_from_countInv (label : Str) :
    ∀ (reads : List Str) (g g' : FieldGroupCountL) (b : Nat), countInv b g →
      group_by_from label reads g = .ok g' →
      countInv (b + totalFields reads) g' := by
  intro reads
  induction reads with
  | nil =>
      intro g g' b h hok
      rw [group_by_from] at hok
      cases hok
      exact countInv_mono (by omega) h
  | cons r rest ih =>
      intro g g' b h hok
      have htf : totalFields (r :: rest)
          = (splitAll '\t' (strPop r)).length + totalFields rest := by
        simp [totalFields]
      by_cases hblank : strPop r = []
      · rw [group_by_from, if_pos hblank] at hok
        refine countInv_mono ?_ (ih _ _ b h hok)
        rw [htf]
        omega
      · rw [group_by_from, if_neg hblank] at hok
        rcases hf : group_by_fields label (splitAll '\t' (strPop r)) g with e | g2
        · rw [hf] at hok
          exact Except.noConfusion hok
        · rw [hf] at hok
          have h2 := group_by_fields_countInv label _ _ _ b h hf
          refine countInv_mono ?_ (ih _ _ _ h2 hok)
          rw [htf]
          omega

theorem group_by_from_cons_a1 (rest : List Str) (g : FieldGroupCountL) :
    group_by_from ("a".toList) (("a:1\n".toList) :: rest) g
      = group_by_from ("a".toList) rest (bump ("1".toList) g) := rfl

theorem group_by_from_replicate_a1 :
    ∀ (n : Nat) (c : Int), wrap32 c = c →
      group_by_from ("a".toList) (List.replicate n ("a:1\n".toList))
          [("1".toList, c)]
        = .ok [("1".toList, wrap32 (c + n))] := by
  intro n
  induction n with
  | zero =>
      intro c hc
      rw [Nat.cast_zero, add_zero, hc]
      rfl
  | succ m ih =>
      intro c hc
      rw [List.replicate_succ, group_by_from_cons_a1]
      rw [show bump ("1".toList) [("1".toList, c)]
          = [("1".toList, wrap32 (c + 1))] from rfl]
      rw [ih (wrap32 (c + 1)) (wrap32_idem _)]
      have hval : wrap32 (wrap32 (c + 1) + (m : Int))
          = wrap32 (c + ((m + 1 : Nat) : Int)) := by
        rw [wrap32_wrap32_add]
        congr 1
        push_cast
        ring
      rw [hval]

/-- C10 fails as stated on the code's `i32` counts: the count is incremented
with wrapping arithmetic, so on `2^31` copies of the line `a:1` a successful
`group_by` returns the table mapping value `1` to the wrapped count
`-2147483648`, which is not at least 1. -/
theorem group_by_counts_wrap_cex :
    group_by (List.replicate 2147483648 ("a:1\n".toList)) ("a".toList)
      = .ok [("1".toList, -2147483648)]
  ∧ ¬ ((1 : Int) ≤ -2147483648) := by
  constructor
  · unfold group_by
    rw [show (2147483648 : Nat) = 2147483647 + 1 from by norm_num]
    rw [List.replicate_succ, group_by_from_cons_a1]
    rw [show bump ("1".toList) ([] : FieldGroupCountL)
        = [("1".toList, wrap32 (0 + 1))] from rfl]
    rw [wrap32_one,
      group_by_from_replicate_a1 2147483647 1 (by norm_num [wrap32])]
    have hval : wrap32 (1 + ((2147483647 : Nat) : Int)) = -2147483648 := by
      norm_num [wrap32]
    rw [hval]
  · norm_num

/-- C10 (amended with a no-overflow bound): every key of a table returned by
a successful `group_by` has count at least 1, provided the input holds fewer
than `2^31` fields in total, so the `i32` increment never overflows.  A key
is inserted with 0 and immediately incremented; every stored count is the
wrapped image of a positive occurrence number bounded by the number of
fields consumed. -/
theorem group_by_counts_positive (reads : List Str) (label : Str)
    (table : FieldGroupCountL)
    (hsize : totalFields reads < 2147483648)
    (h : group_by reads label = .ok table) :
    ∀ p ∈ table, 1 ≤ p.2 := by
  have hinv : countInv (0 + totalFields reads) table := by
    refine group_by_from_countInv label reads [] table 0 ?_ h
    intro p hp
    simp at hp
  intro p hp
  obtain ⟨n, h1, h2, h3⟩ := hinv p hp
  rw [h3, wrap32_small (by omega) (by omega)]
  exact_mod_cast h1

/-- Witness for `group_by_counts_positive` on a one-line input, far below
the overflow bound. -/
theorem group_by_counts_positive_witness :
    (1 : Int) ≤ (("1".toList, (1 : Int)) : Str × Int).2 :=
  group_by_counts_positive (["a:1\n".toList]) ("a".toList)
    [("1".toList, 1)] (by decide) (by decide) (("1".toList, 1)) (by decide)
